import Mathlib

/-!
# Verification of the class-grouped lottery drawer (`lottery_app.py`)

A shallow embedding of the two core functions of the repository,
`run_single_lottery_pool` and `run_lottery_by_class`, over in-memory
tables modelled as lists of rows.

Modelling conventions:

* A pandas row is a `Row`: the configured name column, the configured
  class column, and an opaque payload standing for all other columns.
* A pandas `DataFrame` is a `List Row` (row order = table order).
* `df[col].unique()` is `pdUnique` (first-seen de-duplication, the
  pandas order).
* `df.drop_duplicates(subset=[name_column])` is `dropDupNames` (keeps
  the first row per name, the pandas behaviour).
* Python `set`s of names are `List String` values without duplicates
  produced by `pdUnique`; membership is list membership.
* `random.shuffle` is modelled by caller-supplied reordering functions
  `shE`/`shB` (for the eligible and backup pools); theorems quantify
  over all such functions that permute their input, so they hold for
  every outcome of the shuffle.
* Status messages are the exact strings the source returns.
-/

structure Row where
  name : String
  cls : String
  payload : Nat
deriving DecidableEq

/-- Model of `pandas.unique` and of iteration over a Python set built
from a column:
keeps the first occurrence of each value, in order. `seen` accumulates
the values already emitted. -/
def uniqueAux : List String → List String → List String
  | _, [] => []
  | seen, x :: xs => if x ∈ seen then uniqueAux seen xs else x :: uniqueAux (x :: seen) xs

/-- Model of `df[col].unique()` as a list (first-seen order). -/
def pdUnique (l : List String) : List String := uniqueAux [] l

/-- Model of `df.drop_duplicates(subset=[name_column])`: keep the first row per
name. `seen` accumulates names already kept. -/
def dropDupNamesAux : List String → List Row → List Row
  | _, [] => []
  | seen, r :: rs =>
      if r.name ∈ seen then dropDupNamesAux seen rs
      else r :: dropDupNamesAux (r.name :: seen) rs

/-- Model of `df.drop_duplicates(subset=[name_column])`. -/
def dropDupNames (df : List Row) : List Row := dropDupNamesAux [] df

/-- Embeds `set(registrations_pool_df[name_column].unique())` (line 11). -/
def currentRegistrants (df : List Row) : List String := pdUnique (df.map Row.name)

/-- Embeds `[p for p in pinned_players_in_pool if p not in current_registrants]`
(line 14). -/
def invalidPinned (pinned : List String) (df : List Row) : List String :=
  pinned.filter (fun p => p ∉ currentRegistrants df)

/-- The error message of line 16. -/
def unknownPinnedMsg (invalid : List String) : String :=
  "指定人员 " ++ String.intercalate ", " invalid ++ " 未在当前池中找到。"

/-- The error message of line 18. -/
def pinnedExceedsMsg (numPinned numToDraw : Nat) : String :=
  "指定人数 (" ++ toString numPinned ++ ") 超过了抽取名额 (" ++ toString numToDraw ++ ")。"

/-- Embeds `pool = current_registrants - set(final_winners)` (line 28), with
`final_winners` still equal to the pinned list. -/
def poolAfterPinned (df : List Row) (pinned : List String) : List String :=
  (currentRegistrants df).filter (fun x => x ∉ pinned)

/-- Embeds `pool - previous_winners_set` (line 31), before the shuffle. -/
def eligiblePool (df : List Row) (prev pinned : List String) : List String :=
  (poolAfterPinned df pinned).filter (fun x => x ∉ prev)

/-- Embeds `pool.intersection(previous_winners_set)` (line 34), before the
shuffle. -/
def backupPool (df : List Row) (prev pinned : List String) : List String :=
  (poolAfterPinned df pinned).filter (fun x => x ∈ prev)

/-- Embeds `run_single_lottery_pool` (lines 7-48). `shE` and `shB` stand for
the two `random.shuffle` calls: they are applied to the eligible and
backup pools; theorems restrict them to permutations. Returns the
winners table and the status string. -/
def run_single_lottery_pool (shE shB : List String → List String)
    (registrations_pool_df : List Row) (previous_winners_set : List String)
    (num_to_draw : Nat) (pinned_players_in_pool : List String) : List Row × String :=
  if invalidPinned pinned_players_in_pool registrations_pool_df ≠ [] then
    ([], unknownPinnedMsg (invalidPinned pinned_players_in_pool registrations_pool_df))
  else if pinned_players_in_pool.length > num_to_draw then
    ([], pinnedExceedsMsg pinned_players_in_pool.length num_to_draw)
  else
    let final_winners := pinned_players_in_pool
    let num_remaining_to_draw := num_to_draw - final_winners.length
    if num_remaining_to_draw = 0 then
      (dropDupNames (registrations_pool_df.filter (fun r => r.name ∈ final_winners)),
        "所有名额已由指定人员填补。")
    else
      let eligible_pool := shE (eligiblePool registrations_pool_df previous_winners_set final_winners)
      let backup_pool := shB (backupPool registrations_pool_df previous_winners_set final_winners)
      let drawn_from_eligible := eligible_pool.take num_remaining_to_draw
      let w1 := final_winners ++ drawn_from_eligible
      let num_still_to_draw := num_to_draw - w1.length
      let w2 := if num_still_to_draw > 0 then w1 ++ backup_pool.take num_still_to_draw else w1
      (dropDupNames (registrations_pool_df.filter (fun r => r.name ∈ w2)), "成功")

/-- Python `str.strip()` (the pandas `.str.strip()` of lines 63 and 66
and the `.strip()` of line 69): remove leading and trailing whitespace.
Modelled on the string's character list so it evaluates by kernel
reduction. -/
def pyStrip (s : String) : String :=
  ⟨((s.data.dropWhile Char.isWhitespace).reverse.dropWhile Char.isWhitespace).reverse⟩

/-- The name-cleaning loop of lines 62-65, applied to both tables:
strip the name field, drop rows whose name is empty after stripping.
(`astype(str)` makes `dropna` a no-op, so it is not modelled.)
No de-duplication is performed. -/
def cleanNames (df : List Row) : List Row :=
  (df.map (fun r => { r with name := pyStrip r.name })).filter (fun r => r.name ≠ "")

/-- Cleaning of the registration table: the name cleaning of lines
62-65 followed by the class-column strip of line 66. -/
def cleanRegs (df : List Row) : List Row :=
  (cleanNames df).map (fun r => { r with cls := pyStrip r.cls })

/-- Embeds `set(previous_winners_df[name_column].unique())` (line 68), on the
cleaned table. -/
def prevSetOf (previous_winners_df : List Row) : List String :=
  pdUnique ((cleanNames previous_winners_df).map Row.name)

/-- Embeds the set comprehension of line 69 (strip the pinned names,
drop blanks), as a
duplicate-free list. -/
def pinnedSetOf (pinned_players : List String) : List String :=
  pdUnique ((pinned_players.map pyStrip).filter (fun p => p ≠ ""))

/-- Embeds `registrations_df[class_column].unique()` on the cleaned table
(line 72). -/
def classesOf (registrations_df : List Row) : List String :=
  pdUnique ((cleanRegs registrations_df).map Row.cls)

/-- Embeds `registrations_df[registrations_df[class_column] == class_type]`
(line 79),
on the cleaned table. -/
def classDf (regs : List Row) (c : String) : List Row :=
  regs.filter (fun r => r.cls = c)

/-- Embeds `pinned_players_set.intersection(set(class_registrations_df[name_column]))`
of
(line 82), as a duplicate-free list. -/
def pinnedInClass (pinnedSet : List String) (class_df : List Row) : List String :=
  pinnedSet.filter (fun p => p ∈ class_df.map Row.name)

/-- The per-class invocation of `run_single_lottery_pool` made by
`run_lottery_by_class` (lines 84-90). The shuffle functions are indexed
by the class so each group's two shuffles are independent. -/
def groupDraw (shE shB : String → List String → List String) (regs : List Row)
    (prevSet : List String) (num_per_class : Nat) (pinnedSet : List String)
    (c : String) : List Row × String :=
  run_single_lottery_pool (shE c) (shB c) (classDf regs c) prevSet num_per_class
    (pinnedInClass pinnedSet (classDf regs c))

/-- The per-class summary line for a successful class (line 94). -/
def successMsg (c : String) (won target : Nat) : String :=
  "✔️ **" ++ c ++ "**: 成功抽出 **" ++ toString won ++ "** 人 (目标 " ++ toString target ++ " 人)。"

/-- The per-class summary line for a failed class (line 97). -/
def failMsg (c : String) (status : String) : String :=
  "❌ **" ++ c ++ "**: 抽签失败或无报名者。状态: " ++ status

/-- Embeds `run_lottery_by_class` (lines 51-103): clean both tables, build the
previous-winner and pinned sets, then draw once per class value and
concatenate the non-empty winner tables. The column-existence check of
lines 56-59 is vacuous here because `Row` always carries both fields.
(The cleaning of lines 62-66 is in-place in the source; its effect on
the caller's tables is modelled separately by `tablesAfterRunByClass`.) -/
def run_lottery_by_class (shE shB : String → List String → List String)
    (registrations_df previous_winners_df : List Row) (num_per_class : Nat)
    (pinned_players : List String) : List Row × String :=
  let regs := cleanRegs registrations_df
  let prevSet := prevSetOf previous_winners_df
  let pinnedSet := pinnedSetOf pinned_players
  let results := (classesOf registrations_df).map
    (fun c => (c, groupDraw shE shB regs prevSet num_per_class pinnedSet c))
  let summary := results.map (fun x =>
    if x.2.1 ≠ [] then successMsg x.1 x.2.1.length num_per_class else failMsg x.1 x.2.2)
  let blocks := (results.map (fun x => x.2.1)).filter (fun w => w ≠ [])
  if blocks = [] then ([], "所有班型均未能抽出任何人员。")
  else (blocks.flatten, String.intercalate "\n" summary)

/-- The state of the two caller-supplied tables after
`run_lottery_by_class` returns. The cleaning of lines 62-66 uses
in-place pandas operations (column assignment, `dropna(inplace=True)`,
`drop(..., inplace=True)`) on the argument dataframes, so after the
call the caller's registration table holds its cleaned form and the
caller's previous-winner table holds its name-cleaned form. -/
def tablesAfterRunByClass (registrations_df previous_winners_df : List Row) :
    List Row × List Row :=
  (cleanRegs registrations_df, cleanNames previous_winners_df)

/-! ## List infrastructure lemmas -/

theorem mem_uniqueAux (x : String) : ∀ (l seen : List String),
    x ∈ uniqueAux seen l ↔ x ∈ l ∧ x ∉ seen
  | [], seen => by simp [uniqueAux]
  | y :: ys, seen => by
      rw [uniqueAux]
      by_cases h : y ∈ seen
      · rw [if_pos h, mem_uniqueAux x ys seen]
        constructor
        · exact fun hx => ⟨List.mem_cons_of_mem _ hx.1, hx.2⟩
        · rintro ⟨h1, h2⟩
          rcases List.mem_cons.mp h1 with rfl | h1
          · exact absurd h h2
          · exact ⟨h1, h2⟩
      · rw [if_neg h]
        constructor
        · intro hx
          rcases List.mem_cons.mp hx with rfl | hx
          · exact ⟨List.mem_cons_self _ _, h⟩
          · have hy := (mem_uniqueAux x ys (y :: seen)).mp hx
            exact ⟨List.mem_cons_of_mem _ hy.1,
              fun hs => hy.2 (List.mem_cons_of_mem _ hs)⟩
        · rintro ⟨h1, h2⟩
          rcases List.mem_cons.mp h1 with rfl | h1
          · exact List.mem_cons_self _ _
          · by_cases hxy : x = y
            · subst hxy; exact List.mem_cons_self _ _
            · exact List.mem_cons_of_mem _ ((mem_uniqueAux x ys (y :: seen)).mpr
                ⟨h1, fun hs => (List.mem_cons.mp hs).elim hxy h2⟩)

theorem nodup_uniqueAux : ∀ (l seen : List String), (uniqueAux seen l).Nodup
  | [], _ => List.nodup_nil
  | y :: ys, seen => by
      rw [uniqueAux]
      by_cases h : y ∈ seen
      · rw [if_pos h]; exact nodup_uniqueAux ys seen
      · rw [if_neg h]
        refine List.nodup_cons.mpr ⟨?_, nodup_uniqueAux ys (y :: seen)⟩
        intro hy
        exact ((mem_uniqueAux y ys (y :: seen)).mp hy).2 (List.mem_cons_self _ _)

theorem mem_pdUnique {x : String} {l : List String} : x ∈ pdUnique l ↔ x ∈ l := by
  rw [pdUnique, mem_uniqueAux]; simp

theorem nodup_pdUnique (l : List String) : (pdUnique l).Nodup := nodup_uniqueAux l []

theorem dropDupNamesAux_sublist : ∀ (df : List Row) (seen : List String),
    List.Sublist (dropDupNamesAux seen df) df
  | [], _ => List.Sublist.refl []
  | r :: rs, seen => by
      rw [dropDupNamesAux]
      by_cases h : r.name ∈ seen
      · rw [if_pos h]; exact (dropDupNamesAux_sublist rs seen).cons r
      · rw [if_neg h]; exact (dropDupNamesAux_sublist rs (r.name :: seen)).cons₂ r

theorem map_name_dropDupNamesAux : ∀ (df : List Row) (seen : List String),
    (dropDupNamesAux seen df).map Row.name = uniqueAux seen (df.map Row.name)
  | [], _ => rfl
  | r :: rs, seen => by
      rw [dropDupNamesAux, List.map_cons, uniqueAux]
      by_cases h : r.name ∈ seen
      · rw [if_pos h, if_pos h, map_name_dropDupNamesAux rs seen]
      · rw [if_neg h, if_neg h, List.map_cons, map_name_dropDupNamesAux rs (r.name :: seen)]

theorem map_name_dropDupNames (df : List Row) :
    (dropDupNames df).map Row.name = pdUnique (df.map Row.name) :=
  map_name_dropDupNamesAux df []

theorem nodup_names_dropDupNames (df : List Row) :
    ((dropDupNames df).map Row.name).Nodup := by
  rw [map_name_dropDupNames]; exact nodup_pdUnique _

theorem dropDupNames_sublist (df : List Row) : List.Sublist (dropDupNames df) df :=
  dropDupNamesAux_sublist df []

theorem length_dropDupNames (df : List Row) :
    (dropDupNames df).length = (pdUnique (df.map Row.name)).length := by
  rw [← map_name_dropDupNames, List.length_map]

theorem map_name_filter_mem (df : List Row) (ws : List String) :
    (df.filter (fun r => r.name ∈ ws)).map Row.name
      = (df.map Row.name).filter (fun x => x ∈ ws) := by
  induction df with
  | nil => rfl
  | cons r rs ih => by_cases h : r.name ∈ ws <;> simp [List.filter_cons, h, ih]

theorem length_le_of_nodup_subset {l t : List String} (d : l.Nodup) (h : l ⊆ t) :
    l.length ≤ t.length :=
  (List.subperm_of_subset d h).length_le

/-! ## Behaviour of `run_single_lottery_pool` -/

theorem invalidPinned_eq_nil {pinned : List String} {df : List Row}
    (hsub : ∀ p ∈ pinned, p ∈ df.map Row.name) : invalidPinned pinned df = [] := by
  rw [invalidPinned, List.filter_eq_nil_iff]
  intro p hp
  have hmem : p ∈ currentRegistrants df := by
    rw [currentRegistrants, mem_pdUnique]; exact hsub p hp
  simp [hmem]

/-- Master characterization of a validated single-pool draw: the winner
table is the registrant table filtered to a winner-name list `ws` that
contains every pinned name and has at most `num_to_draw` entries, with
duplicate names dropped. -/
theorem run_single_valid_spec (shE shB : List String → List String)
    (df : List Row) (prev : List String) (n : Nat) (pinned : List String)
    (hsub : ∀ p ∈ pinned, p ∈ df.map Row.name) (hlen : pinned.length ≤ n) :
    ∃ ws : List String,
      (run_single_lottery_pool shE shB df prev n pinned).1 =
        dropDupNames (df.filter (fun r => r.name ∈ ws)) ∧
      (∀ p ∈ pinned, p ∈ ws) ∧ ws.length ≤ n ∧
      ∀ x ∈ ws, x ∈ pinned ∨ x ∈ shE (eligiblePool df prev pinned) ∨
        (x ∈ shB (backupPool df prev pinned) ∧
          (shE (eligiblePool df prev pinned)).length < n - pinned.length) := by
  have hinv := invalidPinned_eq_nil hsub
  rw [run_single_lottery_pool]
  rw [if_neg (by simp [hinv])]
  rw [if_neg (by omega)]
  simp only []
  by_cases hrem : n - pinned.length = 0
  · rw [if_pos hrem]
    exact ⟨pinned, rfl, fun p hp => hp, hlen, fun x hx => Or.inl hx⟩
  · rw [if_neg hrem]
    refine ⟨_, rfl, ?_, ?_, ?_⟩
    · intro p hp
      split
      · exact List.mem_append_left _ (List.mem_append_left _ hp)
      · exact List.mem_append_left _ hp
    · split
      · simp only [List.length_append, List.length_take]
        omega
      · simp only [List.length_append, List.length_take]
        omega
    · intro x hx
      split at hx
      · rcases List.mem_append.mp hx with hx1 | hx2
        · rcases List.mem_append.mp hx1 with hp | he
          · exact Or.inl hp
          · exact Or.inr (Or.inl (List.mem_of_mem_take he))
        · refine Or.inr (Or.inr ⟨List.mem_of_mem_take hx2, ?_⟩)
          rename_i hcond
          rw [List.length_append, List.length_take] at hcond
          omega
      · rcases List.mem_append.mp hx with hp | he
        · exact Or.inl hp
        · exact Or.inr (Or.inl (List.mem_of_mem_take he))

/-- Every row of the winner table is a row of the input table, whatever
the inputs and shuffles. -/
theorem run_single_mem (shE shB : List String → List String)
    (df : List Row) (prev : List String) (n : Nat) (pinned : List String) :
    ∀ r ∈ (run_single_lottery_pool shE shB df prev n pinned).1, r ∈ df := by
  intro r hr
  rw [run_single_lottery_pool] at hr
  split at hr
  · simp at hr
  · split at hr
    · simp at hr
    · simp only [] at hr
      split at hr
      · exact List.mem_of_mem_filter ((dropDupNames_sublist _).mem hr)
      · exact List.mem_of_mem_filter ((dropDupNames_sublist _).mem hr)

/-- The winner table never holds two rows with the same name, whatever
the inputs and shuffles. -/
theorem run_single_nodup_names (shE shB : List String → List String)
    (df : List Row) (prev : List String) (n : Nat) (pinned : List String) :
    (((run_single_lottery_pool shE shB df prev n pinned).1).map Row.name).Nodup := by
  rw [run_single_lottery_pool]
  split
  · simp
  · split
    · simp
    · simp only []
      split
      · exact nodup_names_dropDupNames _
      · exact nodup_names_dropDupNames _

/-! ## Concrete fixtures for witnesses and counterexamples -/

/-- The identity reordering: one legal outcome of `random.shuffle`. -/
def idShuffle : List String → List String := fun l => l

/-- The identity reordering, indexed per class. -/
def idShuffleC : String → List String → List String := fun _ l => l

def rowA : Row := ⟨"A", "X", 0⟩

def rowB : Row := ⟨"B", "X", 1⟩

def rowAY : Row := ⟨"A", "Y", 2⟩

/-! ## Claims -/

/-- C1: for every registrant table, previous-winner set, quota and
validated pinned list (each pinned name registered, pinned count within
the quota), and every outcome of the two shuffles, the winners returned
by the single-pool draw contain no duplicate names, number at most the
quota, and every winner row is a row of the input registrant table. -/
theorem run_single_winners_nodup_le_quota_mem
    (shE shB : List String → List String)
    (df : List Row) (prev : List String) (n : Nat) (pinned : List String)
    (hsub : ∀ p ∈ pinned, p ∈ df.map Row.name) (hlen : pinned.length ≤ n) :
    (((run_single_lottery_pool shE shB df prev n pinned).1).map Row.name).Nodup ∧
    (run_single_lottery_pool shE shB df prev n pinned).1.length ≤ n ∧
    ∀ r ∈ (run_single_lottery_pool shE shB df prev n pinned).1, r ∈ df := by
  obtain ⟨ws, hres, hpin, hws, hcase⟩ :=
    run_single_valid_spec shE shB df prev n pinned hsub hlen
  refine ⟨run_single_nodup_names shE shB df prev n pinned, ?_,
    run_single_mem shE shB df prev n pinned⟩
  rw [hres, length_dropDupNames]
  refine le_trans (length_le_of_nodup_subset (nodup_pdUnique _) ?_) hws
  intro x hx
  rw [mem_pdUnique, map_name_filter_mem] at hx
  have h2 := (List.mem_filter.mp hx).2
  simpa using h2

theorem run_single_winners_nodup_le_quota_mem_witness :
    (((run_single_lottery_pool idShuffle idShuffle [rowA, rowB] [] 1 ["A"]).1).map Row.name).Nodup ∧
    (run_single_lottery_pool idShuffle idShuffle [rowA, rowB] [] 1 ["A"]).1.length ≤ 1 ∧
    ∀ r ∈ (run_single_lottery_pool idShuffle idShuffle [rowA, rowB] [] 1 ["A"]).1,
      r ∈ [rowA, rowB] :=
  run_single_winners_nodup_le_quota_mem idShuffle idShuffle [rowA, rowB] [] 1 ["A"]
    (by decide) (by decide)

/-- C2: for every registrant table, pinned list `P` whose names are all
registered with `|P| ≤ q`, and every outcome of the shuffles, every
name in `P` appears among the winner names of the single-pool draw. -/
theorem run_single_pinned_subset_winners
    (shE shB : List String → List String)
    (df : List Row) (prev : List String) (n : Nat) (pinned : List String)
    (hsub : ∀ p ∈ pinned, p ∈ df.map Row.name) (hlen : pinned.length ≤ n) :
    ∀ p ∈ pinned,
      p ∈ ((run_single_lottery_pool shE shB df prev n pinned).1).map Row.name := by
  obtain ⟨ws, hres, hpin, hws, hcase⟩ :=
    run_single_valid_spec shE shB df prev n pinned hsub hlen
  intro p hp
  rw [hres, map_name_dropDupNames, mem_pdUnique, map_name_filter_mem, List.mem_filter]
  exact ⟨hsub p hp, by simpa using hpin p hp⟩

theorem run_single_pinned_subset_winners_witness :
    "A" ∈ ((run_single_lottery_pool idShuffle idShuffle [rowA, rowB] [] 1 ["A"]).1).map Row.name :=
  run_single_pinned_subset_winners idShuffle idShuffle [rowA, rowB] [] 1 ["A"]
    (by decide) (by decide) "A" (by decide)

/-- C3: whenever the eligible pool is at least as large as the quota
remaining after the pinned names, no winner name of the single-pool
draw belongs to the backup pool (the registered previous winners), for
every permutation the two shuffles may choose. -/
theorem run_single_no_backup_when_eligible_suffices
    (shE shB : List String → List String)
    (hE : ∀ l, (shE l).Perm l) (hB : ∀ l, (shB l).Perm l)
    (df : List Row) (prev : List String) (n : Nat) (pinned : List String)
    (hsub : ∀ p ∈ pinned, p ∈ df.map Row.name) (hlen : pinned.length ≤ n)
    (helig : n - pinned.length ≤ (eligiblePool df prev pinned).length) :
    ∀ x ∈ ((run_single_lottery_pool shE shB df prev n pinned).1).map Row.name,
      x ∉ backupPool df prev pinned := by
  obtain ⟨ws, hres, hpin, hws, hcase⟩ :=
    run_single_valid_spec shE shB df prev n pinned hsub hlen
  intro x hx hxb
  have hxpool : x ∈ poolAfterPinned df pinned := List.mem_of_mem_filter hxb
  have hxnotpin : x ∉ pinned := by
    have h2 := (List.mem_filter.mp hxpool).2
    simpa using h2
  have hxprev : x ∈ prev := by
    have h2 := (List.mem_filter.mp hxb).2
    simpa using h2
  rw [hres, map_name_dropDupNames, mem_pdUnique, map_name_filter_mem] at hx
  have hxw : x ∈ ws := by
    have h2 := (List.mem_filter.mp hx).2
    simpa using h2
  rcases hcase x hxw with hp | he | hb
  · exact hxnotpin hp
  · have hxe : x ∈ eligiblePool df prev pinned := (hE _).mem_iff.mp he
    have h2 := (List.mem_filter.mp hxe).2
    exact (by simpa using h2 : x ∉ prev) hxprev
  · rcases hb with ⟨hbm, hblt⟩
    have hlenE := (hE (eligiblePool df prev pinned)).length_eq
    omega

theorem run_single_no_backup_when_eligible_suffices_witness :
    "B" ∉ ((run_single_lottery_pool idShuffle idShuffle [rowA, rowB] ["B"] 1 []).1).map Row.name :=
  fun h =>
    run_single_no_backup_when_eligible_suffices idShuffle idShuffle
      (fun l => List.Perm.refl l) (fun l => List.Perm.refl l)
      [rowA, rowB] ["B"] 1 [] (by decide) (by decide) (by decide) "B" h (by decide)

theorem length_filter_notmem_add_mem (l prev : List String) :
    (l.filter (fun x => x ∉ prev)).length + (l.filter (fun x => x ∈ prev)).length
      = l.length := by
  induction l with
  | nil => rfl
  | cons x xs ih => by_cases h : x ∈ prev <;> simp [List.filter_cons, h] at ih ⊢ <;> omega

theorem length_eligible_add_backup (df : List Row) (prev pinned : List String) :
    (eligiblePool df prev pinned).length + (backupPool df prev pinned).length
      = (poolAfterPinned df pinned).length :=
  length_filter_notmem_add_mem (poolAfterPinned df pinned) prev

theorem poolAfterPinned_nil (df : List Row) :
    poolAfterPinned df [] = currentRegistrants df := by
  simp [poolAfterPinned]

/-- C4 (counterexample to the claim as stated): at the shortfall input
R = {A, B}, quota 5, pinned empty, the draw returns the same plain
成功 (success) status that the no-shortfall draw with quota 1 returns —
`run_single_lottery_pool` has no shortfall status at all. -/
theorem run_single_shortfall_status_counterexample :
    (currentRegistrants [rowA, rowB]).length < 5 ∧
    (run_single_lottery_pool idShuffle idShuffle [rowA, rowB] [] 5 []).2 = "成功" ∧
    (run_single_lottery_pool idShuffle idShuffle [rowA, rowB] [] 1 []).2
      = (run_single_lottery_pool idShuffle idShuffle [rowA, rowB] [] 5 []).2 := by
  decide

/-- C4 (amended): for every registrant table with fewer distinct names
than the quota and empty pinned list, and every outcome of the two
shuffles, the single-pool draw returns all registrants (one row per
distinct name, so `|winners|` equals the number of distinct registrant
names) with the generic success status 成功 — the same status as a full
draw, with no shortfall indication — and never an error. -/
theorem run_single_shortfall_returns_all
    (shE shB : List String → List String)
    (hE : ∀ l, (shE l).Perm l) (hB : ∀ l, (shB l).Perm l)
    (df : List Row) (prev : List String) (n : Nat)
    (hlt : (currentRegistrants df).length < n) :
    (run_single_lottery_pool shE shB df prev n []).1 = dropDupNames df ∧
    (run_single_lottery_pool shE shB df prev n []).1.length
      = (currentRegistrants df).length ∧
    (run_single_lottery_pool shE shB df prev n []).2 = "成功" := by
  have hlenE := (hE (eligiblePool df prev [])).length_eq
  have hlenB := (hB (backupPool df prev [])).length_eq
  have hpart := length_eligible_add_backup df prev []
  rw [poolAfterPinned_nil] at hpart
  have htakeE : List.take n (shE (eligiblePool df prev []))
      = shE (eligiblePool df prev []) := by
    apply List.take_of_length_le
    omega
  have htakeB : List.take (n - (shE (eligiblePool df prev [])).length)
      (shB (backupPool df prev [])) = shB (backupPool df prev []) := by
    apply List.take_of_length_le
    omega
  have hmemall : ∀ r ∈ df,
      r.name ∈ shE (eligiblePool df prev []) ++ shB (backupPool df prev []) := by
    intro r hr
    have hcur : r.name ∈ currentRegistrants df := by
      rw [currentRegistrants, mem_pdUnique]
      exact List.mem_map_of_mem Row.name hr
    rw [List.mem_append]
    by_cases hp : r.name ∈ prev
    · right
      rw [(hB _).mem_iff, backupPool, List.mem_filter, poolAfterPinned_nil]
      exact ⟨hcur, by simpa using hp⟩
    · left
      rw [(hE _).mem_iff, eligiblePool, List.mem_filter, poolAfterPinned_nil]
      exact ⟨hcur, by simpa using hp⟩
  have hfilter : df.filter (fun r =>
      r.name ∈ shE (eligiblePool df prev []) ++ shB (backupPool df prev [])) = df := by
    rw [List.filter_eq_self]
    intro r hr
    simpa using hmemall r hr
  have hrun : run_single_lottery_pool shE shB df prev n []
      = (dropDupNames df, "成功") := by
    rw [run_single_lottery_pool]
    rw [if_neg (by simp [invalidPinned])]
    rw [if_neg (by simp)]
    simp only []
    rw [if_neg (by simp; omega)]
    simp only [List.nil_append, List.length_nil, Nat.sub_zero]
    rw [htakeE]
    rw [if_pos (by omega)]
    rw [htakeB, hfilter]
  rw [hrun]
  refine ⟨rfl, ?_, rfl⟩
  simpa [currentRegistrants] using length_dropDupNames df

theorem run_single_shortfall_returns_all_witness :
    (run_single_lottery_pool idShuffle idShuffle [rowA, rowB] [] 5 []).1
      = dropDupNames [rowA, rowB] ∧
    (run_single_lottery_pool idShuffle idShuffle [rowA, rowB] [] 5 []).1.length
      = (currentRegistrants [rowA, rowB]).length ∧
    (run_single_lottery_pool idShuffle idShuffle [rowA, rowB] [] 5 []).2 = "成功" :=
  run_single_shortfall_returns_all idShuffle idShuffle
    (fun l => List.Perm.refl l) (fun l => List.Perm.refl l)
    [rowA, rowB] [] 5 (by decide)

/-- C6: when some pinned name is absent from the registrant name set,
the single-pool draw fails with the UnknownPinned message built from
the invalid-pinned list — which contains every absent pinned name, and
only absent ones — and returns an empty winners table. -/
theorem run_single_unknown_pinned
    (shE shB : List String → List String)
    (df : List Row) (prev : List String) (n : Nat) (pinned : List String)
    (x : String) (hx : x ∈ pinned) (hnx : x ∉ df.map Row.name) :
    run_single_lottery_pool shE shB df prev n pinned
      = ([], unknownPinnedMsg (invalidPinned pinned df)) ∧
    (∀ p ∈ pinned, p ∉ df.map Row.name → p ∈ invalidPinned pinned df) ∧
    (∀ p ∈ invalidPinned pinned df, p ∈ pinned ∧ p ∉ df.map Row.name) := by
  have hmemInv : ∀ p ∈ pinned, p ∉ df.map Row.name → p ∈ invalidPinned pinned df := by
    intro p hp hnp
    rw [invalidPinned, List.mem_filter]
    refine ⟨hp, ?_⟩
    simp [currentRegistrants, mem_pdUnique, hnp]
  have hinvne : invalidPinned pinned df ≠ [] :=
    List.ne_nil_of_mem (hmemInv x hx hnx)
  refine ⟨?_, hmemInv, ?_⟩
  · rw [run_single_lottery_pool, if_pos hinvne]
  · intro p hp
    rw [invalidPinned, List.mem_filter] at hp
    refine ⟨hp.1, ?_⟩
    have h2 := hp.2
    simp only [decide_eq_true_eq] at h2
    rw [currentRegistrants, mem_pdUnique] at h2
    exact h2

theorem run_single_unknown_pinned_witness :
    run_single_lottery_pool idShuffle idShuffle [rowA] [] 1 ["Z"]
      = ([], unknownPinnedMsg (invalidPinned ["Z"] [rowA])) :=
  (run_single_unknown_pinned idShuffle idShuffle [rowA] [] 1 ["Z"] "Z"
    (by decide) (by decide)).1

/-- C10: the pinned list that the group orchestrator passes to
`run_single_lottery_pool` is the intersection of the global pinned set
with the group's registered names, so the UnknownPinned validation list
is always empty and the unknown-pinned error branch is unreachable:
the status of a group call is always one of the other three statuses. -/
theorem groupDraw_unknown_pinned_unreachable
    (shE shB : String → List String → List String) (regs : List Row)
    (prevSet : List String) (n : Nat) (pinnedSet : List String) (c : String) :
    invalidPinned (pinnedInClass pinnedSet (classDf regs c)) (classDf regs c) = [] ∧
    ((groupDraw shE shB regs prevSet n pinnedSet c).2
        = pinnedExceedsMsg (pinnedInClass pinnedSet (classDf regs c)).length n ∨
      (groupDraw shE shB regs prevSet n pinnedSet c).2 = "所有名额已由指定人员填补。" ∨
      (groupDraw shE shB regs prevSet n pinnedSet c).2 = "成功") := by
  have hinv : invalidPinned (pinnedInClass pinnedSet (classDf regs c)) (classDf regs c)
      = [] := by
    rw [invalidPinned, List.filter_eq_nil_iff]
    intro p hp
    rw [pinnedInClass, List.mem_filter] at hp
    have h2 := hp.2
    simp only [decide_eq_true_eq] at h2
    have hcur : p ∈ currentRegistrants (classDf regs c) := by
      rw [currentRegistrants, mem_pdUnique]; exact h2
    simp [hcur]
  refine ⟨hinv, ?_⟩
  rw [groupDraw, run_single_lottery_pool]
  rw [if_neg (by simp [hinv])]
  by_cases hlen : (pinnedInClass pinnedSet (classDf regs c)).length > n
  · rw [if_pos hlen]
    exact Or.inl rfl
  · rw [if_neg hlen]
    simp only []
    by_cases hrem : n - (pinnedInClass pinnedSet (classDf regs c)).length = 0
    · rw [if_pos hrem]
      exact Or.inr (Or.inl rfl)
    · rw [if_neg hrem]
      exact Or.inr (Or.inr rfl)

def rowASpaces : Row := ⟨" A ", "X", 3⟩

/-- C7 (counterexample to the claim as stated): the cleaning step does
not de-duplicate the registrant table on the name field — a table with
two rows named A still has two rows named A after cleaning. -/
theorem cleaning_no_dedup_counterexample :
    ¬ (∀ df : List Row, ((cleanRegs df).map Row.name).Nodup) :=
  fun h => absurd (h [rowA, ⟨"A", "X", 1⟩]) (by decide)

/-- C7 (amended): the cleaning applied to the registrant table strips
whitespace from the name field and discards rows whose name is empty
after stripping, but performs no de-duplication: each non-empty name
keeps its full multiplicity (one cleaned row per raw row whose stripped
name equals it), and no blank-name row survives. -/
theorem cleaning_strips_discards_keeps_multiplicity
    (df : List Row) (nm : String) (hnm : nm ≠ "") :
    (cleanRegs df).countP (fun r => r.name = nm)
      = df.countP (fun r => pyStrip r.name = nm) ∧
    (cleanRegs df).countP (fun r => r.name = "") = 0 := by
  constructor
  · rw [cleanRegs, cleanNames, List.countP_map, List.countP_filter, List.countP_map]
    apply List.countP_congr
    intro r hr
    simp only [Function.comp, Bool.and_eq_true, decide_eq_true_eq, ne_eq,
      decide_not, Bool.not_eq_true', decide_eq_false_iff_not]
    constructor
    · exact fun h => h.1
    · exact fun h => ⟨h, by rw [h]; exact hnm⟩
  · rw [List.countP_eq_zero]
    intro r hr
    rw [cleanRegs] at hr
    obtain ⟨s, hs, rfl⟩ := List.mem_map.mp hr
    have h2 := (List.mem_filter.mp hs).2
    simpa using h2

theorem cleaning_strips_discards_keeps_multiplicity_witness :
    (cleanRegs [rowASpaces, rowA]).countP (fun r => r.name = "A")
      = [rowASpaces, rowA].countP (fun r => pyStrip r.name = "A") ∧
    (cleanRegs [rowASpaces, rowA]).countP (fun r => r.name = "") = 0 :=
  cleaning_strips_discards_keeps_multiplicity [rowASpaces, rowA] "A" (by decide)

theorem cleanNames_eq_self (df : List Row)
    (h : ∀ r ∈ df, pyStrip r.name = r.name ∧ r.name ≠ "") : cleanNames df = df := by
  rw [cleanNames]
  have hrows : ∀ r ∈ df, ({ r with name := pyStrip r.name } : Row) = id r := by
    intro r hr
    have h1 := (h r hr).1
    cases r
    simp_all [id]
  rw [List.map_congr_left hrows, List.map_id, List.filter_eq_self]
  intro r hr
  simpa using (h r hr).2

theorem cleanRegs_eq_self (df : List Row)
    (h : ∀ r ∈ df, pyStrip r.name = r.name ∧ r.name ≠ "" ∧ pyStrip r.cls = r.cls) :
    cleanRegs df = df := by
  rw [cleanRegs, cleanNames_eq_self df (fun r hr => ⟨(h r hr).1, (h r hr).2.1⟩)]
  have hrows : ∀ r ∈ df, ({ r with cls := pyStrip r.cls } : Row) = id r := by
    intro r hr
    have h1 := (h r hr).2.2
    cases r
    simp_all [id]
  rw [List.map_congr_left hrows, List.map_id]

/-- C8 (counterexample to the claim as stated): the in-place cleaning
of lines 62-66 changes the caller's registration table whenever a name
needs stripping: after the call the caller's table holds the cleaned
rows, not the rows that were supplied. -/
theorem run_by_class_mutates_inputs_counterexample :
    tablesAfterRunByClass [rowASpaces] [rowA] ≠ ([rowASpaces], [rowA]) := by
  decide

/-- C8 (amended): `run_lottery_by_class` mutates its two argument
tables in place, but only through the cleaning of lines 62-66: after a
call the registration table holds its cleaned form and the
previous-winner table its name-cleaned form, so input tables that are
already clean (stripped names and classes, no blank names) come back
unchanged, and no other mutation occurs. -/
theorem tables_after_clean_inputs_unchanged (regs prev : List Row)
    (hr : ∀ r ∈ regs, pyStrip r.name = r.name ∧ r.name ≠ "" ∧ pyStrip r.cls = r.cls)
    (hp : ∀ r ∈ prev, pyStrip r.name = r.name ∧ r.name ≠ "") :
    tablesAfterRunByClass regs prev = (regs, prev) := by
  rw [tablesAfterRunByClass, cleanRegs_eq_self regs hr, cleanNames_eq_self prev hp]

theorem tables_after_clean_inputs_unchanged_witness :
    tablesAfterRunByClass [rowA, rowB] [rowAY] = ([rowA, rowB], [rowAY]) :=
  tables_after_clean_inputs_unchanged [rowA, rowB] [rowAY] (by decide) (by decide)

/-- The winners table of `run_lottery_by_class` is always the
concatenation of the non-empty per-class winner tables (also when the
all-failed branch returns the empty table). -/
theorem run_by_class_winners_eq (shE shB : String → List String → List String)
    (regs prev : List Row) (n : Nat) (pinned : List String) :
    (run_lottery_by_class shE shB regs prev n pinned).1 =
      (((classesOf regs).map (fun c =>
          (groupDraw shE shB (cleanRegs regs) (prevSetOf prev) n (pinnedSetOf pinned) c).1)).filter
        (fun w => w ≠ [])).flatten := by
  rw [run_lottery_by_class]
  simp only [List.map_map, Function.comp_def]
  split
  · rename_i hb
    rw [hb]
    rfl
  · rfl

/-- C9: in grouped mode a failing group does not abort the others —
every group whose own draw produced winners contributes its block to
the final table — and when every group fails or yields zero winners the
orchestrator returns the empty table with the explanatory
all-groups-failed message instead of an error. -/
theorem run_by_class_group_isolation
    (shE shB : String → List String → List String)
    (regs prev : List Row) (n : Nat) (pinned : List String) :
    (∀ c ∈ classesOf regs,
      (groupDraw shE shB (cleanRegs regs) (prevSetOf prev) n (pinnedSetOf pinned) c).1 ≠ [] →
      List.Sublist
        (groupDraw shE shB (cleanRegs regs) (prevSetOf prev) n (pinnedSetOf pinned) c).1
        (run_lottery_by_class shE shB regs prev n pinned).1) ∧
    ((∀ c ∈ classesOf regs,
        (groupDraw shE shB (cleanRegs regs) (prevSetOf prev) n (pinnedSetOf pinned) c).1 = []) →
      run_lottery_by_class shE shB regs prev n pinned
        = ([], "所有班型均未能抽出任何人员。")) := by
  constructor
  · intro c hc hne
    rw [run_by_class_winners_eq]
    apply List.sublist_flatten_of_mem
    rw [List.mem_filter]
    refine ⟨List.mem_map_of_mem _ hc, by simpa using hne⟩
  · intro hall
    rw [run_lottery_by_class]
    simp only [List.map_map, Function.comp_def]
    rw [if_pos ?_]
    rw [List.filter_eq_nil_iff]
    intro w hw
    rw [List.mem_map] at hw
    obtain ⟨c, hc, rfl⟩ := hw
    simpa using hall c hc

theorem run_by_class_group_isolation_witness :
    run_lottery_by_class idShuffleC idShuffleC [rowA, rowB] [] 1 ["A", "B"]
      = ([], "所有班型均未能抽出任何人员。") :=
  (run_by_class_group_isolation idShuffleC idShuffleC [rowA, rowB] [] 1 ["A", "B"]).2
    (by decide)

/-- Every winner name that a group draw emits belongs to a registrant
row of that very class. -/
theorem groupDraw_name_provenance (shE shB : String → List String → List String)
    (regs' : List Row) (prevSet : List String) (n : Nat) (pinnedSet : List String)
    (c : String) (x : String)
    (hx : x ∈ ((groupDraw shE shB regs' prevSet n pinnedSet c).1).map Row.name) :
    ∃ r ∈ regs', r.name = x ∧ r.cls = c := by
  obtain ⟨r, hr, rfl⟩ := List.mem_map.mp hx
  have hrc : r ∈ classDf regs' c :=
    run_single_mem (shE c) (shB c) (classDf regs' c) prevSet n
      (pinnedInClass pinnedSet (classDf regs' c)) r hr
  rw [classDf, List.mem_filter] at hrc
  refine ⟨r, hrc.1, rfl, ?_⟩
  simpa using hrc.2

/-- C5 (counterexample to the claim as stated): a name registered in
two classes can win in both groups, and then appears twice in the
concatenated Draw Result table. -/
theorem run_by_class_duplicate_across_groups_counterexample :
    ¬ (((run_lottery_by_class idShuffleC idShuffleC [rowA, rowAY] [] 1 []).1).map
        Row.name).Nodup := by
  decide

/-- C5 (amended): within each group's winner block no name appears
twice; and whenever no cleaned registrant name is registered under two
distinct class values, the concatenated Draw Result of the grouped draw
has no duplicate names. (A name registered in several groups can still
appear once per winning group, as the counterexample shows.) -/
theorem run_by_class_nodup_names
    (shE shB : String → List String → List String)
    (regs prev : List Row) (n : Nat) (pinned : List String) :
    (∀ c ∈ classesOf regs,
      (((groupDraw shE shB (cleanRegs regs) (prevSetOf prev) n (pinnedSetOf pinned) c).1).map
        Row.name).Nodup) ∧
    ((∀ r ∈ cleanRegs regs, ∀ s ∈ cleanRegs regs, r.name = s.name → r.cls = s.cls) →
      (((run_lottery_by_class shE shB regs prev n pinned).1).map Row.name).Nodup) := by
  constructor
  · intro c hc
    exact run_single_nodup_names (shE c) (shB c) (classDf (cleanRegs regs) c)
      (prevSetOf prev) n (pinnedInClass (pinnedSetOf pinned) (classDf (cleanRegs regs) c))
  · intro hinj
    rw [run_by_class_winners_eq, List.map_flatten, List.nodup_flatten]
    constructor
    · intro l hl
      obtain ⟨w, hw, rfl⟩ := List.mem_map.mp hl
      obtain ⟨c, hc, rfl⟩ := List.mem_map.mp (List.mem_of_mem_filter hw)
      exact run_single_nodup_names _ _ _ _ _ _
    · rw [List.pairwise_map]
      apply List.Pairwise.sublist (List.filter_sublist _)
      rw [List.pairwise_map]
      refine List.Pairwise.imp ?_ (nodup_pdUnique _)
      intro c c' hcc
      intro x hxc hxc'
      obtain ⟨r, hrmem, hrx, hrc⟩ :=
        groupDraw_name_provenance shE shB (cleanRegs regs) (prevSetOf prev) n
          (pinnedSetOf pinned) c x hxc
      obtain ⟨s, hsmem, hsx, hsc⟩ :=
        groupDraw_name_provenance shE shB (cleanRegs regs) (prevSetOf prev) n
          (pinnedSetOf pinned) c' x hxc'
      exact hcc (by rw [← hrc, ← hsc]; exact hinj r hrmem s hsmem (by rw [hrx, hsx]))

theorem run_by_class_nodup_names_witness :
    (((run_lottery_by_class idShuffleC idShuffleC [rowA, rowB] [] 1 []).1).map
      Row.name).Nodup :=
  (run_by_class_nodup_names idShuffleC idShuffleC [rowA, rowB] [] 1 []).2 (by decide)
